import Mathlib

/-!
Shallow embedding of the `rust-todo` core: the record store (`TodoList`, a
`HashMap<String, bool>` modelled as an association list with nodup keys),
the structural diff engine (`diff_with`), the command state machine
(`apply_action`), the persistence paths (`save_to_disk` / `load_from_disk`)
and the multi-codec serialization harness (`run_encoding_test`).

The Rust `HashMap` is modelled as `List (String × Bool)`; its iteration
order is unspecified in Rust, so theorems that depend on order are stated
only through order-independent consequences, and well-formedness
(`Store.WF`, nodup keys — an invariant every Rust `HashMap` satisfies) is
an explicit hypothesis where the proofs need it.
-/

namespace RustTodo

/-- The backing map of `TodoList` (`map: HashMap<String, bool>`),
modelled as an association list of name/status pairs. -/
abbrev Store := List (String × Bool)

/-- Keys of the store, in iteration order. -/
def Store.keys (m : Store) : List String := m.map Prod.fst

/-- Every Rust `HashMap` has pairwise-distinct keys; this is the
well-formedness every `Store` that models one satisfies. -/
def Store.WF (m : Store) : Prop := m.keys.Nodup

instance (m : Store) : Decidable m.WF := by
  unfold Store.WF; infer_instance

/-- `HashMap::get` / `contains_key` lookup. -/
def Store.lookupKey (m : Store) (k : String) : Option Bool :=
  match m with
  | [] => none
  | (k', v) :: rest => if k' = k then some v else Store.lookupKey rest k

/-- `HashMap::contains_key`. -/
def Store.containsKey (m : Store) (k : String) : Bool :=
  (m.lookupKey k).isSome

/-- `HashMap::insert`: replaces the value when the key is present,
otherwise adds the new entry. -/
def Store.insertKey (m : Store) (k : String) (v : Bool) : Store :=
  match m with
  | [] => [(k, v)]
  | (k', v') :: rest =>
    if k' = k then (k, v) :: rest else (k', v') :: Store.insertKey rest k v

/-- `HashMap::remove_entry`: removes and returns the entry for `k`,
with the remaining map. -/
def Store.removeEntry (m : Store) (k : String) :
    Option ((String × Bool) × Store) :=
  match m with
  | [] => none
  | (k', v) :: rest =>
    if k' = k then some ((k', v), rest)
    else
      match Store.removeEntry rest k with
      | some (e, rest') => some (e, (k', v) :: rest')
      | none => none

/-- The map after `HashMap::remove`: drops the (first) entry for `k`. -/
def Store.eraseKey (m : Store) (k : String) : Store :=
  match m.removeEntry k with
  | some (_, m') => m'
  | none => m

/-- `src/todos/command_error.rs`: the typed command errors. -/
inductive CommandError
  | TodoAlreadyExists
  | TodoNotFound
  | InputInvalid (msg : String)
deriving DecidableEq, Repr

/-- `src/todos/todolist.rs`: one detected discrepancy between two stores. -/
inductive DiffEntry
  | TodoNotFound (todo : String) (this_has that_has : Bool)
  | TodoStatusMistake (todo : String) (this_status that_status : Bool)
deriving DecidableEq, Repr

/-- The todo name an entry talks about. -/
def DiffEntry.name : DiffEntry → String
  | .TodoNotFound todo _ _ => todo
  | .TodoStatusMistake todo _ _ => todo

/-- `src/todos/todolist.rs`: result of `diff_with`. -/
inductive DiffResult
  | Same
  | Changes (entries : List DiffEntry)
deriving DecidableEq, Repr

/-- The entries a diff result carries (`Same` carries none). -/
def DiffResult.entries : DiffResult → List DiffEntry
  | .Same => []
  | .Changes l => l

/-- The first loop of `TodoList::diff_with`: walks `self.map`, removing
each visited key from the working copy of `other.map` (`that_copy`) and
emitting `TodoStatusMistake` / `TodoNotFound(this_has := true)` entries;
returns the emitted entries together with the final `that_copy`. -/
def diffLoop : Store → Store → List DiffEntry × Store
  | [], thatCopy => ([], thatCopy)
  | (k, v) :: rest, thatCopy =>
    match thatCopy.removeEntry k with
    | some ((_, w), thatCopy') =>
      let r := diffLoop rest thatCopy'
      ((if w ≠ v then [DiffEntry.TodoStatusMistake k v w] else []) ++ r.1, r.2)
    | none =>
      let r := diffLoop rest thatCopy
      (DiffEntry.TodoNotFound k true false :: r.1, r.2)

/-- `TodoList::diff_with`: both-empty short-circuit, the first loop over
`self.map`, then a `TodoNotFound(that_has := true)` entry for every key
left in `that_copy`; `Same` iff no entries were emitted. -/
def diff_with (self other : Store) : DiffResult :=
  if self.isEmpty && other.isEmpty then DiffResult.Same
  else
    let r := diffLoop self other
    let changes := r.1 ++ r.2.map (fun kv => DiffEntry.TodoNotFound kv.1 false true)
    if changes.isEmpty then DiffResult.Same else DiffResult.Changes changes

/-- `TodoList::add_todo`: rejects the empty name (`InputInvalid`) and a
present key (`TodoAlreadyExists`); otherwise inserts. Returned with the
resulting store, since the Rust method mutates `&mut self`. -/
def add_todo (todo : String) (status : Bool) (m : Store) :
    Except CommandError Unit × Store :=
  if todo = "" then
    (Except.error (CommandError.InputInvalid "Todo is empty"), m)
  else if m.containsKey todo then
    (Except.error CommandError.TodoAlreadyExists, m)
  else
    (Except.ok (), m.insertKey todo status)

/-- `TodoList::remove_todo` (`HashMap::remove_entry`): the removed pair,
if any, with the resulting store. -/
def remove_todo (todo : String) (m : Store) :
    Option (String × Bool) × Store :=
  match m.removeEntry todo with
  | some (e, m') => (some e, m')
  | none => (none, m)

/-- `TodoList::clear_todos`. -/
def clear_todos (_ : Store) : Store := []

/-- `src/state/actions/action_payload.rs`: the validated command payloads. -/
inductive ActionPayload
  | Add (key : String)
  | Clear
  | Edit (existing new_text : String)
  | List
  | ListWithStatus (kind : Bool)
  | Remove (key : String)
  | Set (key : String) (val : Bool)
  | Other (input : String)
deriving DecidableEq, Repr

/-- `src/input/prompter.rs` response used by the `Clear` arm. -/
inductive ResponseBool
  | Value (b : Bool)
  | Cancelled
  | Error (msg : String)
deriving DecidableEq, Repr

/-- `TodoList::run_debug_command` result (the store is `&self`, never
mutated): `"encoding"` runs the encoding harness (returns `Ok`),
`"diff"` runs the diff test (`InputInvalid` on an empty store), anything
else is reported unknown and returns `Ok`. -/
def run_debug_command (input : String) (m : Store) : Except CommandError Unit :=
  if input.toLower = "encoding" then Except.ok ()
  else if input.toLower = "diff" then
    if m.isEmpty then
      Except.error (CommandError.InputInvalid
        "TodoList must have at least 1 entry in order to run diff test!")
    else Except.ok ()
  else Except.ok ()

/-- `TodoList::apply_action`. The `Clear` arm consults the interactive
prompt, passed here as the `prompt` argument; all other arms are exactly
the source's branches. Returns the command result with the resulting
store (the Rust method mutates `&mut self`). -/
def apply_action (prompt : ResponseBool) (action : ActionPayload) (m : Store) :
    Except CommandError Unit × Store :=
  match action with
  | .Add key => add_todo key false m
  | .Clear =>
    match prompt with
    | .Value true => (Except.ok (), clear_todos m)
    | _ => (Except.ok (), m)
  | .Edit existing new_text =>
    match m.lookupKey existing with
    | some status =>
      (Except.ok (), (m.eraseKey existing).insertKey new_text status)
    | none => (Except.error CommandError.TodoNotFound, m)
  | .List => (Except.ok (), m)
  | .ListWithStatus _ => (Except.ok (), m)
  | .Remove key =>
    if key = "" then
      (Except.error (CommandError.InputInvalid "Todo is empty"), m)
    else
      match remove_todo key m with
      | (some _, m') => (Except.ok (), m')
      | (none, m') => (Except.error CommandError.TodoNotFound, m')
  | .Set key val =>
    if key = "" then
      (Except.error (CommandError.InputInvalid "Todo is empty"), m)
    else
      (Except.ok (), m.insertKey key val)
  | .Other input => (run_debug_command input m, m)

/-- The store after a sequence of commands, each with the prompt response
its `Clear` arm would observe; a failing command leaves the store as the
source does (unchanged). -/
def applySeq (cmds : List (ResponseBool × ActionPayload)) (m : Store) : Store :=
  match cmds with
  | [] => m
  | (p, a) :: rest => applySeq rest (apply_action p a m).2

/-- `src/utils/cereal.rs`: the closed set of supported encodings. -/
inductive EncodingType
  | Json
  | Cbor
  | Bson
  | MsgPack
  | FlexBuffer
deriving DecidableEq, Repr

/-- `EncodingType::all()`, in the source's order. -/
def EncodingType.all : List EncodingType :=
  [.Bson, .Cbor, .FlexBuffer, .Json, .MsgPack]

/-- `EncodingType::get_file_ext`. -/
def EncodingType.get_file_ext : EncodingType → String
  | .Json => "json"
  | .Cbor => "cbor"
  | .Bson => "bson"
  | .MsgPack => "msgpack"
  | .FlexBuffer => "flex"

/-- The strum-derived `Display` of `EncodingType`: with no serialization
attribute, strum prints the variant name verbatim. -/
def EncodingType.display : EncodingType → String
  | .Json => "Json"
  | .Cbor => "Cbor"
  | .Bson => "Bson"
  | .MsgPack => "MsgPack"
  | .FlexBuffer => "FlexBuffer"

/-- `src/todos/todolist.rs`: `DEFAULT_ENCODING`. -/
def DEFAULT_ENCODING : EncodingType := EncodingType.MsgPack

/-- The encoded byte streams. The concrete formats live in external
crates (serde_json, serde_cbor, bson, rmp-serde, flexbuffers), so bytes
are modelled as `List Nat`. -/
abbrev Bytes := List Nat

/-- Modelled from the spec: the byte encoding of one store, the codec
contract's "stable two-way mapping (no information loss for the Store's
data model — name/status pairs)". Each name is length-prefixed, followed
by its character codes and a status byte. The five concrete formats are
external crates absent from `src/`; this realizes the §4.3 contract. -/
def encodeStore : Store → Bytes
  | [] => []
  | (k, v) :: rest =>
    k.toList.length :: (k.toList.map Char.toNat ++
      ((if v then 1 else 0) :: encodeStore rest))

/-- Modelled from the spec: the decoder matching `encodeStore`; fails on
truncated input (the codec contract's fallible `decode(bytes) -> value`). -/
def decodeStore : Bytes → Except String Store
  | [] => Except.ok []
  | n :: rest =>
    if n + 1 ≤ rest.length then
      match decodeStore (rest.drop (n + 1)) with
      | Except.ok m =>
        Except.ok ((String.mk ((rest.take n).map Char.ofNat),
          (rest.drop n).headD 0 == 1) :: m)
      | Except.error e => Except.error e
    else Except.error "malformed input"
termination_by l => l.length
decreasing_by
  simp only [List.length_cons, List.length_drop]
  omega

/-- Modelled from the spec: a per-format tag, making the five codecs
five distinct byte mappings (each format is self-identifying to its own
decoder and rejected by the others). -/
def EncodingType.tag : EncodingType → Nat
  | .Json => 0
  | .Cbor => 1
  | .Bson => 2
  | .MsgPack => 3
  | .FlexBuffer => 4

/-- Modelled from the spec: one codec's `encode(value) -> bytes` for the
store (the `Cereal::serialize_json` … `serialize_bson` primitives, which
live in external crates). -/
def encodeWith (c : EncodingType) (m : Store) : Except String Bytes :=
  Except.ok (c.tag :: encodeStore m)

/-- Modelled from the spec: one codec's `decode(bytes) -> value`
(the `Cereal::deserialize_json` … `deserialize_bson` primitives). -/
def decodeWith (c : EncodingType) (bytes : Bytes) : Except String Store :=
  match bytes with
  | [] => Except.error "malformed input"
  | t :: rest =>
    if t = c.tag then decodeStore rest else Except.error "malformed input"

/-- `Cereal::serialize_with`: the source's dispatch on the encoding tag
to the per-format primitive. -/
def serialize_with (encoding : EncodingType) (data : Store) :
    Except String Bytes :=
  match encoding with
  | .Json => encodeWith .Json data
  | .Cbor => encodeWith .Cbor data
  | .MsgPack => encodeWith .MsgPack data
  | .FlexBuffer => encodeWith .FlexBuffer data
  | .Bson => encodeWith .Bson data

/-- `Cereal::deserialize_with`: the source's dispatch on the encoding
tag to the per-format primitive. -/
def deserialize_with (encoding : EncodingType) (bytes : Bytes) :
    Except String Store :=
  match encoding with
  | .Json => decodeWith .Json bytes
  | .Cbor => decodeWith .Cbor bytes
  | .MsgPack => decodeWith .MsgPack bytes
  | .FlexBuffer => decodeWith .FlexBuffer bytes
  | .Bson => decodeWith .Bson bytes

/-- The on-disk state: file path to byte contents. -/
abbrev FileState := List (String × Bytes)

/-- Contents of a path, if the file exists. -/
def FileState.lookupPath (fs : FileState) (p : String) : Option Bytes :=
  match fs with
  | [] => none
  | (p', d) :: rest => if p' = p then some d else FileState.lookupPath rest p

/-- `FileSystem::save_bytes`: creates or overwrites the file. -/
def FileState.writePath (fs : FileState) (p : String) (d : Bytes) : FileState :=
  match fs with
  | [] => [(p, d)]
  | (p', d') :: rest =>
    if p' = p then (p, d) :: rest else (p', d') :: FileState.writePath rest p d

/-- The path `TodoList::save_to_disk` writes:
`format!("data.{}", DEFAULT_ENCODING.get_file_ext())`. -/
def save_path : String := "data." ++ DEFAULT_ENCODING.get_file_ext

/-- The path `TodoList::load_from_disk` reads:
`format!("data.{}", DEFAULT_ENCODING)` — the strum `Display`,
not `get_file_ext`. -/
def load_path : String := "data." ++ DEFAULT_ENCODING.display

/-- `TodoList::save_to_disk`: serialize with the default codec and write
the bytes to `save_path`, returning the new disk state. -/
def save_to_disk (fs : FileState) (m : Store) : Except String FileState :=
  match serialize_with DEFAULT_ENCODING m with
  | Except.error err => Except.error err
  | Except.ok bytes => Except.ok (fs.writePath save_path bytes)

/-- `TodoList::load_from_disk`: `NotFound` when `load_path` does not
exist, otherwise read the bytes and decode with the default codec. -/
def load_from_disk (fs : FileState) : Except String Store :=
  match fs.lookupPath load_path with
  | none =>
    Except.error ("File " ++ toString (repr load_path) ++ " not found!")
  | some bytes => deserialize_with DEFAULT_ENCODING bytes

/-- The first loop of `TodoList::run_encoding_test`: each codec whose
serialization succeeds lands in `byte_map`; a failing codec is reported
and skipped. `time_map` gets exactly the same keys. -/
def harness_byte_map (ser : EncodingType → Store → Except String Bytes)
    (m : Store) : List (EncodingType × Bytes) :=
  EncodingType.all.filterMap (fun ty =>
    match ser ty m with
    | Except.ok data => some (ty, data)
    | Except.error _ => none)

/-- The third loop of `TodoList::run_encoding_test`, per codec: the
diagnostic file `./data/<ty>.dat` exists iff serialization succeeded
(the second loop wrote one file per `byte_map` entry); on a decode
failure the error is printed and the codec's `time_map` entry keeps its
default `de_duration`. The result records, per codec of `byte_map`,
whether its decode succeeded and the resulting diff against the
original. `time_map`'s key set is never changed by this loop
(`Entry::and_modify` only updates existing entries). -/
def harness_decode_results (ser : EncodingType → Store → Except String Bytes)
    (de : EncodingType → Bytes → Except String Store)
    (m : Store) : List (EncodingType × Option DiffResult) :=
  (harness_byte_map ser m).map (fun tb =>
    match de tb.1 tb.2 with
    | Except.ok recreated => (tb.1, some (diff_with m recreated))
    | Except.error _ => (tb.1, none))

/-- The codecs appearing as rows of the reported size table: the table
iterates `byte_map` (sorted by byte length; the sort does not change
which codecs appear). -/
def harness_size_table_codecs
    (ser : EncodingType → Store → Except String Bytes)
    (m : Store) : List EncodingType :=
  ((harness_byte_map ser m).mergeSort
    (fun a b => a.2.length ≤ b.2.length)).map Prod.fst

/-- The codecs appearing as rows of the reported timing table: the table
iterates `time_map`, whose keys are exactly `byte_map`'s (the decode
loop only ever `and_modify`-updates existing entries). The sort key
(`se_duration`) is real elapsed time, abstracted away; which codecs
appear does not depend on it. -/
def harness_time_table_codecs
    (ser : EncodingType → Store → Except String Bytes)
    (m : Store) : List EncodingType :=
  (harness_byte_map ser m).map Prod.fst

/-- The serializer actually used by the harness (`Cereal::serialize_with`). -/
def cerealSer : EncodingType → Store → Except String Bytes := serialize_with

/-- A serializer table in which one codec (`Bson`) fails to encode and
the others behave as `Cereal::serialize_with` — the "that codec's encode
fails" scenario of the claim. -/
def serFailingBson : EncodingType → Store → Except String Bytes :=
  fun ty m =>
    match ty with
    | .Bson => Except.error "encode failure"
    | _ => serialize_with ty m

/-- The property the diff claims are checked against: `e` is an entry
the spec's diff algorithm emits for the pair `(self, other)`. -/
def DiffSpec (self other : Store) : DiffEntry → Prop
  | .TodoNotFound k th ta =>
    (th = true ∧ ta = false ∧ k ∈ self.keys ∧ k ∉ other.keys) ∨
    (th = false ∧ ta = true ∧ k ∉ self.keys ∧ k ∈ other.keys)
  | .TodoStatusMistake k v w =>
    self.lookupKey k = some v ∧ other.lookupKey k = some w ∧ v ≠ w

instance (self other : Store) (e : DiffEntry) :
    Decidable (DiffSpec self other e) := by
  cases e <;> (unfold DiffSpec; infer_instance)

/-- Exchanging the `this`/`that` roles inside one diff entry. -/
def DiffEntry.swapSides : DiffEntry → DiffEntry
  | .TodoNotFound k th ta => .TodoNotFound k ta th
  | .TodoStatusMistake k v w => .TodoStatusMistake k w v

/-- A list of diff entries in ascending order of item name. -/
def sortedByName (l : List DiffEntry) : Prop :=
  (l.map DiffEntry.name).Sorted (· ≤ ·)

/-- Every key of the store is a non-empty name (the spec's store
invariant, together with key uniqueness). -/
def Store.namesNonempty (m : Store) : Prop := ∀ k ∈ m.keys, k ≠ ""

instance (m : Store) : Decidable m.namesNonempty := by
  unfold Store.namesNonempty; infer_instance

/-- The entry the first loop of `diff_with` emits for one pair of
`self.map`, as a function of the original `other` map. -/
def firstPassEntry (other : Store) (kv : String × Bool) : Option DiffEntry :=
  match other.lookupKey kv.1 with
  | some w =>
    if w ≠ kv.2 then some (DiffEntry.TodoStatusMistake kv.1 kv.2 w) else none
  | none => some (DiffEntry.TodoNotFound kv.1 true false)

/-! ### Basic facts about the association-list model of `HashMap` -/

lemma Store.keys_nil : Store.keys [] = [] := rfl

lemma Store.keys_cons (a : String) (b : Bool) (rest : Store) :
    Store.keys ((a, b) :: rest) = a :: Store.keys rest := rfl

lemma Store.WF_cons {a : String} {b : Bool} {rest : Store} :
    Store.WF ((a, b) :: rest) ↔ a ∉ Store.keys rest ∧ Store.WF rest := by
  unfold Store.WF
  rw [Store.keys_cons, List.nodup_cons]

lemma Store.mem_keys_iff {m : Store} {k : String} :
    k ∈ Store.keys m ↔ ∃ v, (k, v) ∈ m := by
  unfold Store.keys
  constructor
  · intro h
    rcases List.mem_map.mp h with ⟨⟨k', v⟩, hm, hk⟩
    exact ⟨v, by simpa [← hk] using hm⟩
  · rintro ⟨v, hv⟩
    exact List.mem_map.mpr ⟨(k, v), hv, rfl⟩

lemma Store.lookupKey_eq_none {m : Store} {k : String} :
    Store.lookupKey m k = none ↔ k ∉ Store.keys m := by
  induction m with
  | nil => simp [Store.lookupKey, Store.keys]
  | cons kv rest ih =>
    obtain ⟨k', v⟩ := kv
    by_cases h : k' = k
    · subst h
      simp [Store.lookupKey, Store.keys_cons]
    · simp only [Store.lookupKey, if_neg h, Store.keys_cons, List.mem_cons]
      rw [ih]
      constructor
      · intro hn hc
        rcases hc with hc | hc
        · exact h hc.symm
        · exact hn hc
      · intro hn hc
        exact hn (Or.inr hc)

lemma Store.containsKey_iff {m : Store} {k : String} :
    Store.containsKey m k = true ↔ k ∈ Store.keys m := by
  unfold Store.containsKey
  rw [Option.isSome_iff_ne_none]
  simp only [ne_eq, Store.lookupKey_eq_none, not_not]

lemma Store.containsKey_eq_false {m : Store} {k : String} :
    Store.containsKey m k = false ↔ k ∉ Store.keys m := by
  rw [← Bool.not_eq_true, not_iff_not]
  exact Store.containsKey_iff

lemma Store.lookupKey_mem {m : Store} {k : String} {v : Bool}
    (h : Store.lookupKey m k = some v) : (k, v) ∈ m := by
  induction m with
  | nil => simp [Store.lookupKey] at h
  | cons kv rest ih =>
    obtain ⟨k', v'⟩ := kv
    by_cases hk : k' = k
    · subst hk
      have hv : v' = v := by simpa [Store.lookupKey] using h
      subst hv
      exact List.mem_cons_self _ _
    · simp only [Store.lookupKey, if_neg hk] at h
      exact List.mem_cons_of_mem _ (ih h)

lemma Store.lookupKey_of_mem {m : Store} {k : String} {v : Bool}
    (hwf : Store.WF m) (h : (k, v) ∈ m) : Store.lookupKey m k = some v := by
  induction m with
  | nil => simp at h
  | cons kv rest ih =>
    obtain ⟨k', v'⟩ := kv
    obtain ⟨hnm, hwf'⟩ := Store.WF_cons.mp hwf
    rcases List.mem_cons.mp h with h1 | h1
    · have hk : k = k' := congrArg Prod.fst h1
      have hv : v = v' := congrArg Prod.snd h1
      subst hk
      simp [Store.lookupKey, hv]
    · have hk : k' ≠ k := by
        intro hkk
        subst hkk
        exact hnm (Store.mem_keys_iff.mpr ⟨v, h1⟩)
      simp only [Store.lookupKey, if_neg hk]
      exact ih hwf' h1

lemma Store.keys_insertKey (m : Store) (k : String) (v : Bool) :
    Store.keys (Store.insertKey m k v) =
      if Store.containsKey m k then Store.keys m else Store.keys m ++ [k] := by
  induction m with
  | nil => simp [Store.insertKey, Store.keys, Store.containsKey, Store.lookupKey]
  | cons kv rest ih =>
    obtain ⟨k', v'⟩ := kv
    by_cases h : k' = k
    · subst h
      simp [Store.insertKey, Store.keys_cons, Store.containsKey, Store.lookupKey]
    · have hc : Store.containsKey ((k', v') :: rest) k =
          Store.containsKey rest k := by
        simp [Store.containsKey, Store.lookupKey, h]
      simp only [Store.insertKey, if_neg h, hc, Store.keys_cons, ih]
      by_cases h2 : Store.containsKey rest k
      · simp [h2]
      · simp only [Bool.not_eq_true] at h2
        simp [h2]

lemma Store.WF.insertKey {m : Store} (hwf : Store.WF m) (k : String) (v : Bool) :
    Store.WF (Store.insertKey m k v) := by
  unfold Store.WF
  rw [Store.keys_insertKey]
  by_cases h : Store.containsKey m k
  · simpa [h] using hwf
  · simp only [h, Bool.false_eq_true, if_false]
    rw [List.nodup_append]
    refine ⟨hwf, List.nodup_singleton k, ?_⟩
    intro a ha hb
    rw [List.mem_singleton] at hb
    subst hb
    rw [Bool.not_eq_true] at h
    exact (Store.containsKey_eq_false.mp h) ha

lemma Store.lookupKey_insertKey_self (m : Store) (k : String) (v : Bool) :
    Store.lookupKey (Store.insertKey m k v) k = some v := by
  induction m with
  | nil => simp [Store.insertKey, Store.lookupKey]
  | cons kv rest ih =>
    obtain ⟨k', v'⟩ := kv
    by_cases h : k' = k
    · subst h
      simp [Store.insertKey, Store.lookupKey]
    · simp [Store.insertKey, Store.lookupKey, h, ih]

lemma Store.lookupKey_insertKey_ne (m : Store) {k k' : String} (v : Bool)
    (h : k' ≠ k) :
    Store.lookupKey (Store.insertKey m k v) k' = Store.lookupKey m k' := by
  induction m with
  | nil => simp [Store.insertKey, Store.lookupKey, Ne.symm h]
  | cons kv rest ih =>
    obtain ⟨a, b⟩ := kv
    by_cases ha : a = k
    · subst ha
      simp [Store.insertKey, Store.lookupKey, Ne.symm h]
    · by_cases ha' : a = k'
      · subst ha'
        simp [Store.insertKey, Store.lookupKey, ha]
      · simp [Store.insertKey, Store.lookupKey, ha, ha', ih]

lemma Store.removeEntry_eq_none {m : Store} {k : String} :
    Store.removeEntry m k = none ↔ Store.lookupKey m k = none := by
  induction m with
  | nil => simp [Store.removeEntry, Store.lookupKey]
  | cons kv rest ih =>
    obtain ⟨k', v⟩ := kv
    by_cases h : k' = k
    · subst h
      simp [Store.removeEntry, Store.lookupKey]
    · simp only [Store.removeEntry, Store.lookupKey, if_neg h]
      rw [← ih]
      cases Store.removeEntry rest k with
      | none => simp
      | some e => simp

lemma Store.eraseKey_cons (a : String) (b : Bool) (rest : Store) (k : String) :
    Store.eraseKey ((a, b) :: rest) k =
      if a = k then rest else (a, b) :: Store.eraseKey rest k := by
  by_cases h : a = k
  · subst h
    simp [Store.eraseKey, Store.removeEntry]
  · simp only [Store.eraseKey, Store.removeEntry, if_neg h]
    cases he : Store.removeEntry rest k with
    | none => simp
    | some e =>
      obtain ⟨e1, e2⟩ := e
      simp

lemma Store.removeEntry_of_lookup {m : Store} {k : String} {v : Bool}
    (h : Store.lookupKey m k = some v) :
    Store.removeEntry m k = some ((k, v), Store.eraseKey m k) := by
  induction m with
  | nil => simp [Store.lookupKey] at h
  | cons kv rest ih =>
    obtain ⟨k', v'⟩ := kv
    by_cases hk : k' = k
    · subst hk
      have hv : v' = v := by simpa [Store.lookupKey] using h
      subst hv
      simp [Store.removeEntry, Store.eraseKey]
    · simp only [Store.lookupKey, if_neg hk] at h
      simp only [Store.removeEntry, if_neg hk, ih h, Store.eraseKey_cons,
        if_neg hk]

lemma Store.eraseKey_of_not_mem {m : Store} {k : String}
    (h : k ∉ Store.keys m) : Store.eraseKey m k = m := by
  have h2 : Store.lookupKey m k = none := Store.lookupKey_eq_none.mpr h
  simp [Store.eraseKey, Store.removeEntry_eq_none.mpr h2]

lemma Store.eraseKey_eq_filter {m : Store} (hwf : Store.WF m) (k : String) :
    Store.eraseKey m k = m.filter (fun kv => kv.1 != k) := by
  induction m with
  | nil => simp [Store.eraseKey, Store.removeEntry]
  | cons kv rest ih =>
    obtain ⟨a, b⟩ := kv
    obtain ⟨hnm, hrest⟩ := Store.WF_cons.mp hwf
    by_cases h : a = k
    · subst h
      rw [Store.eraseKey_cons, if_pos rfl]
      rw [List.filter_cons_of_neg (by simp)]
      symm
      rw [List.filter_eq_self]
      intro kv hkv
      have hmem : kv.1 ∈ Store.keys rest :=
        Store.mem_keys_iff.mpr ⟨kv.2, by simpa using hkv⟩
      simp only [bne_iff_ne, ne_eq]
      intro hh
      exact hnm (hh ▸ hmem)
    · rw [Store.eraseKey_cons, if_neg h, List.filter_cons_of_pos (by simp [h]),
        ih hrest]

lemma Store.WF.eraseKey {m : Store} (hwf : Store.WF m) (k : String) :
    Store.WF (Store.eraseKey m k) := by
  rw [Store.eraseKey_eq_filter hwf]
  exact List.Nodup.sublist (List.Sublist.map _ (List.filter_sublist m)) hwf

lemma Store.lookupKey_eraseKey_ne {m : Store} {k k' : String} (h : k' ≠ k) :
    Store.lookupKey (Store.eraseKey m k) k' = Store.lookupKey m k' := by
  induction m with
  | nil => simp [Store.eraseKey, Store.removeEntry]
  | cons kv rest ih =>
    obtain ⟨a, b⟩ := kv
    rw [Store.eraseKey_cons]
    by_cases ha : a = k
    · rw [if_pos ha]
      have hak : a ≠ k' := fun hh => h (by rw [← hh, ha])
      simp [Store.lookupKey, hak]
    · rw [if_neg ha]
      by_cases ha' : a = k'
      · simp [Store.lookupKey, ha']
      · simp [Store.lookupKey, ha', ih]

lemma Store.lookupKey_eraseKey_self {m : Store} (hwf : Store.WF m) (k : String) :
    Store.lookupKey (Store.eraseKey m k) k = none := by
  rw [Store.eraseKey_eq_filter hwf, Store.lookupKey_eq_none]
  intro hmem
  rcases Store.mem_keys_iff.mp hmem with ⟨v, hv⟩
  have := List.of_mem_filter hv
  simp at this

/-! ### The diff engine -/

lemma diffLoop_snd (self other : Store) :
    (diffLoop self other).2 = (Store.keys self).foldl Store.eraseKey other := by
  induction self generalizing other with
  | nil => simp [diffLoop, Store.keys]
  | cons kv rest ih =>
    obtain ⟨k, v⟩ := kv
    rw [Store.keys_cons, List.foldl_cons, ← ih (Store.eraseKey other k)]
    cases he : Store.removeEntry other k with
    | none =>
      have : Store.eraseKey other k = other := by simp [Store.eraseKey, he]
      simp [diffLoop, he, this]
    | some e =>
      obtain ⟨⟨k1, w⟩, rest'⟩ := e
      have : Store.eraseKey other k = rest' := by simp [Store.eraseKey, he]
      simp [diffLoop, he, this]

lemma foldl_eraseKey {m : Store} (hwf : Store.WF m) (ks : List String) :
    ks.foldl Store.eraseKey m = m.filter (fun kv => !(ks.contains kv.1)) := by
  induction ks generalizing m with
  | nil => simp
  | cons k ks ih =>
    rw [List.foldl_cons, ih (Store.WF.eraseKey hwf k),
      Store.eraseKey_eq_filter hwf, List.filter_filter]
    apply List.filter_congr
    intro kv _
    by_cases h : kv.1 = k
    · simp [h]
    · simp [h, Ne.symm h]

lemma firstPassEntry_name {other : Store} {kv : String × Bool} {e : DiffEntry}
    (h : firstPassEntry other kv = some e) : e.name = kv.1 := by
  cases hl : Store.lookupKey other kv.1 with
  | none =>
    simp only [firstPassEntry, hl] at h
    cases h
    rfl
  | some w =>
    simp only [firstPassEntry, hl] at h
    by_cases hw : w ≠ kv.2
    · rw [if_pos hw] at h
      cases h
      rfl
    · rw [if_neg hw] at h
      cases h

lemma diffLoop_fst {self : Store} (other : Store)
    (h : (Store.keys self).Nodup) :
    (diffLoop self other).1 = self.filterMap (firstPassEntry other) := by
  induction self generalizing other with
  | nil => simp [diffLoop]
  | cons kv rest ih =>
    obtain ⟨k, v⟩ := kv
    rw [Store.keys_cons, List.nodup_cons] at h
    obtain ⟨hk, hrest⟩ := h
    have hcongr : ∀ (o : Store), rest.filterMap (firstPassEntry (Store.eraseKey o k)) =
        rest.filterMap (firstPassEntry o) := by
      intro o
      apply List.filterMap_congr
      intro kv' hkv'
      have hne : kv'.1 ≠ k := by
        intro hh
        exact hk (hh ▸ Store.mem_keys_iff.mpr ⟨kv'.2, by simpa using hkv'⟩)
      unfold firstPassEntry
      rw [Store.lookupKey_eraseKey_ne hne]
    cases hl : Store.lookupKey other k with
    | none =>
      have he : Store.removeEntry other k = none := Store.removeEntry_eq_none.mpr hl
      simp only [diffLoop, he, List.filterMap_cons]
      have hfpe : firstPassEntry other (k, v) = some (DiffEntry.TodoNotFound k true false) := by
        unfold firstPassEntry
        rw [hl]
      rw [hfpe, ih other hrest]
    | some w =>
      have he : Store.removeEntry other k = some ((k, w), Store.eraseKey other k) :=
        Store.removeEntry_of_lookup hl
      simp only [diffLoop, he, List.filterMap_cons]
      have hfpe : firstPassEntry other (k, v) =
          if w ≠ v then some (DiffEntry.TodoStatusMistake k v w) else none := by
        unfold firstPassEntry
        rw [hl]
      rw [hfpe, ih (Store.eraseKey other k) hrest, hcongr other]
      by_cases hw : w ≠ v
      · rw [if_pos hw, if_pos hw]
        simp
      · rw [if_neg hw, if_neg hw]
        simp

/-- The changes list `diff_with` builds, before the `Same`/`Changes`
packaging. -/
lemma diff_with_entries (self other : Store) :
    (diff_with self other).entries =
      (diffLoop self other).1 ++
        (diffLoop self other).2.map (fun kv => DiffEntry.TodoNotFound kv.1 false true) := by
  unfold diff_with
  by_cases hboth : self.isEmpty && other.isEmpty
  · rw [if_pos hboth]
    rw [Bool.and_eq_true, List.isEmpty_iff, List.isEmpty_iff] at hboth
    obtain ⟨h1, h2⟩ := hboth
    subst h1
    subst h2
    simp [diffLoop, DiffResult.entries]
  · rw [if_neg hboth]
    by_cases hch : ((diffLoop self other).1 ++
        (diffLoop self other).2.map
          (fun kv => DiffEntry.TodoNotFound kv.1 false true)).isEmpty
    · simp only [hch, if_true, DiffResult.entries]
      rw [List.isEmpty_iff] at hch
      exact hch.symm
    · simp only [hch, Bool.false_eq_true, if_false, DiffResult.entries]

lemma diff_with_Same_iff (self other : Store) :
    diff_with self other = DiffResult.Same ↔
      (diff_with self other).entries = [] := by
  constructor
  · intro h
    rw [h]
    rfl
  · intro h
    cases hd : diff_with self other with
    | Same => rfl
    | Changes l =>
      rw [hd] at h
      simp only [DiffResult.entries] at h
      subst h
      unfold diff_with at hd
      by_cases hboth : self.isEmpty && other.isEmpty
      · rw [if_pos hboth] at hd
        cases hd
      · rw [if_neg hboth] at hd
        by_cases hch : ((diffLoop self other).1 ++
            (diffLoop self other).2.map
              (fun kv => DiffEntry.TodoNotFound kv.1 false true)).isEmpty
        · simp only [hch, if_true] at hd
          cases hd
        · simp only [hch, Bool.false_eq_true, if_false] at hd
          injection hd with hx
          rw [hx] at hch
          simp at hch

lemma mem_diff_entries {self other : Store} (h1 : Store.WF self)
    (h2 : Store.WF other) (e : DiffEntry) :
    e ∈ (diff_with self other).entries ↔ DiffSpec self other e := by
  rw [diff_with_entries, List.mem_append, diffLoop_fst other h1, diffLoop_snd,
    foldl_eraseKey h2]
  constructor
  · rintro (hfst | hsnd)
    · rcases List.mem_filterMap.mp hfst with ⟨⟨k, v⟩, hmem, hf⟩
      cases hl : Store.lookupKey other k with
      | none =>
        simp only [firstPassEntry, hl] at hf
        cases hf
        unfold DiffSpec
        refine Or.inl ⟨rfl, rfl, Store.mem_keys_iff.mpr ⟨v, hmem⟩, ?_⟩
        exact Store.lookupKey_eq_none.mp hl
      | some w =>
        simp only [firstPassEntry, hl] at hf
        by_cases hw : w ≠ v
        · rw [if_pos hw] at hf
          cases hf
          unfold DiffSpec
          exact ⟨Store.lookupKey_of_mem h1 hmem, hl, Ne.symm hw⟩
        · rw [if_neg hw] at hf
          cases hf
    · rcases List.mem_map.mp hsnd with ⟨⟨k, v⟩, hmem, hf⟩
      have hmem2 := List.mem_filter.mp hmem
      subst hf
      unfold DiffSpec
      refine Or.inr ⟨rfl, rfl, ?_, Store.mem_keys_iff.mpr ⟨v, hmem2.1⟩⟩
      have hcontains := hmem2.2
      simpa using hcontains
  · intro hspec
    cases e with
    | TodoNotFound k th ta =>
      unfold DiffSpec at hspec
      rcases hspec with ⟨hth, hta, hks, hko⟩ | ⟨hth, hta, hks, hko⟩
      · subst hth
        subst hta
        left
        rcases Store.mem_keys_iff.mp hks with ⟨v, hv⟩
        apply List.mem_filterMap.mpr
        refine ⟨(k, v), hv, ?_⟩
        unfold firstPassEntry
        rw [Store.lookupKey_eq_none.mpr hko]
      · subst hth
        subst hta
        right
        rcases Store.mem_keys_iff.mp hko with ⟨v, hv⟩
        apply List.mem_map.mpr
        refine ⟨(k, v), ?_, rfl⟩
        apply List.mem_filter.mpr
        refine ⟨hv, ?_⟩
        simpa using hks
    | TodoStatusMistake k v w =>
      unfold DiffSpec at hspec
      obtain ⟨hs, ho, hne⟩ := hspec
      left
      apply List.mem_filterMap.mpr
      refine ⟨(k, v), Store.lookupKey_mem hs, ?_⟩
      simp only [firstPassEntry, ho]
      rw [if_pos (Ne.symm hne)]

lemma firstPass_names_sublist (self other : Store) :
    ((self.filterMap (firstPassEntry other)).map DiffEntry.name).Sublist
      (Store.keys self) := by
  induction self with
  | nil => simp
  | cons kv rest ih =>
    obtain ⟨k, v⟩ := kv
    rw [Store.keys_cons, List.filterMap_cons]
    cases hf : firstPassEntry other (k, v) with
    | none => exact List.Sublist.cons _ ih
    | some e =>
      rw [List.map_cons, firstPassEntry_name hf]
      exact List.Sublist.cons₂ _ ih

lemma entry_names_nodup {self other : Store} (h1 : Store.WF self)
    (h2 : Store.WF other) :
    ((diff_with self other).entries.map DiffEntry.name).Nodup := by
  rw [diff_with_entries, diffLoop_fst other h1, diffLoop_snd,
    foldl_eraseKey h2, List.map_append]
  rw [List.nodup_append]
  refine ⟨List.Sublist.nodup (firstPass_names_sublist self other) h1, ?_, ?_⟩
  · rw [List.map_map]
    have hsub : ((other.filter fun kv => !(Store.keys self).contains kv.1).map
        (DiffEntry.name ∘ fun kv => DiffEntry.TodoNotFound kv.1 false true)).Sublist
        (Store.keys other) := by
      have : (DiffEntry.name ∘ fun kv : String × Bool =>
          DiffEntry.TodoNotFound kv.1 false true) = Prod.fst := by
        funext kv
        rfl
      rw [this]
      exact List.Sublist.map _ (List.filter_sublist other)
    exact List.Sublist.nodup hsub h2
  · intro a ha hb
    have ha2 : a ∈ Store.keys self := by
      have := (firstPass_names_sublist self other).subset ha
      exact this
    rw [List.map_map] at hb
    rcases List.mem_map.mp hb with ⟨⟨k, v⟩, hkv, hname⟩
    have hk : k = a := hname
    subst hk
    have := (List.mem_filter.mp hkv).2
    simp at this
    exact this ha2

lemma diff_refl {m : Store} (h : Store.WF m) :
    diff_with m m = DiffResult.Same := by
  rw [diff_with_Same_iff, List.eq_nil_iff_forall_not_mem]
  intro e he
  have hspec := (mem_diff_entries h h e).mp he
  cases e with
  | TodoNotFound k th ta =>
    unfold DiffSpec at hspec
    rcases hspec with ⟨_, _, hks, hko⟩ | ⟨_, _, hks, hko⟩
    · exact hko hks
    · exact hks hko
  | TodoStatusMistake k v w =>
    unfold DiffSpec at hspec
    obtain ⟨hs, ho, hne⟩ := hspec
    rw [hs] at ho
    injection ho with hvw
    exact hne hvw

lemma swapSides_swapSides (e : DiffEntry) : e.swapSides.swapSides = e := by
  cases e <;> rfl

lemma name_swapSides (e : DiffEntry) : e.swapSides.name = e.name := by
  cases e <;> rfl

lemma swapSides_injective : Function.Injective DiffEntry.swapSides := by
  intro a b h
  have := congrArg DiffEntry.swapSides h
  rwa [swapSides_swapSides, swapSides_swapSides] at this

lemma DiffSpec_swap (self other : Store) (e : DiffEntry) :
    DiffSpec other self e ↔ DiffSpec self other e.swapSides := by
  cases e with
  | TodoNotFound k th ta =>
    unfold DiffEntry.swapSides DiffSpec
    tauto
  | TodoStatusMistake k v w =>
    unfold DiffEntry.swapSides DiffSpec
    tauto

/-! ### The command state machine -/

lemma Store.keys_eraseKey_subset (m : Store) (k : String) :
    ∀ k' ∈ Store.keys (Store.eraseKey m k), k' ∈ Store.keys m := by
  induction m with
  | nil => simp [Store.eraseKey, Store.removeEntry]
  | cons kv rest ih =>
    obtain ⟨a, b⟩ := kv
    rw [Store.eraseKey_cons]
    by_cases h : a = k
    · rw [if_pos h]
      intro k' hk'
      rw [Store.keys_cons]
      exact List.mem_cons_of_mem _ hk'
    · rw [if_neg h]
      intro k' hk'
      rw [Store.keys_cons] at hk' ⊢
      rcases List.mem_cons.mp hk' with h1 | h1
      · exact List.mem_cons.mpr (Or.inl h1)
      · exact List.mem_cons.mpr (Or.inr (ih k' h1))

lemma Store.namesNonempty_insertKey {m : Store} (h : Store.namesNonempty m)
    {k : String} (hk : k ≠ "") (v : Bool) :
    Store.namesNonempty (Store.insertKey m k v) := by
  intro k' hk'
  rw [Store.keys_insertKey] at hk'
  by_cases hc : Store.containsKey m k
  · rw [if_pos hc] at hk'
    exact h k' hk'
  · rw [if_neg (by simpa using hc)] at hk'
    rcases List.mem_append.mp hk' with h1 | h1
    · exact h k' h1
    · rw [List.mem_singleton] at h1
      subst h1
      exact hk

lemma Store.namesNonempty_eraseKey {m : Store} (h : Store.namesNonempty m)
    (k : String) : Store.namesNonempty (Store.eraseKey m k) := by
  intro k' hk'
  exact h k' (Store.keys_eraseKey_subset m k k' hk')

lemma apply_action_Add (p : ResponseBool) (key : String) (m : Store) :
    apply_action p (ActionPayload.Add key) m = add_todo key false m := rfl

lemma apply_action_Clear (p : ResponseBool) (m : Store) :
    apply_action p ActionPayload.Clear m =
      (Except.ok (), if p = ResponseBool.Value true then clear_todos m else m) := by
  cases p with
  | Value b => cases b <;> rfl
  | Cancelled => rfl
  | Error msg => rfl

lemma apply_action_Edit (p : ResponseBool) (ex nt : String) (m : Store) :
    apply_action p (ActionPayload.Edit ex nt) m =
      match Store.lookupKey m ex with
      | some status =>
        (Except.ok (), Store.insertKey (Store.eraseKey m ex) nt status)
      | none => (Except.error CommandError.TodoNotFound, m) := rfl

lemma apply_action_List (p : ResponseBool) (m : Store) :
    apply_action p ActionPayload.List m = (Except.ok (), m) := rfl

lemma apply_action_ListWithStatus (p : ResponseBool) (kind : Bool) (m : Store) :
    apply_action p (ActionPayload.ListWithStatus kind) m = (Except.ok (), m) := rfl

lemma apply_action_Remove (p : ResponseBool) (key : String) (m : Store) :
    apply_action p (ActionPayload.Remove key) m =
      if key = "" then
        (Except.error (CommandError.InputInvalid "Todo is empty"), m)
      else
        match remove_todo key m with
        | (some _, m') => (Except.ok (), m')
        | (none, m') => (Except.error CommandError.TodoNotFound, m') := rfl

lemma apply_action_Set (p : ResponseBool) (key : String) (val : Bool) (m : Store) :
    apply_action p (ActionPayload.Set key val) m =
      if key = "" then
        (Except.error (CommandError.InputInvalid "Todo is empty"), m)
      else (Except.ok (), Store.insertKey m key val) := rfl

lemma apply_action_Other (p : ResponseBool) (input : String) (m : Store) :
    apply_action p (ActionPayload.Other input) m =
      (run_debug_command input m, m) := rfl

lemma remove_todo_of_lookup {m : Store} {key : String} {v : Bool}
    (h : Store.lookupKey m key = some v) :
    remove_todo key m = (some (key, v), Store.eraseKey m key) := by
  unfold remove_todo
  rw [Store.removeEntry_of_lookup h]

lemma remove_todo_of_absent {m : Store} {key : String}
    (h : Store.lookupKey m key = none) :
    remove_todo key m = (none, m) := by
  unfold remove_todo
  rw [Store.removeEntry_eq_none.mpr h]

/-- What every single command preserves: key uniqueness always, and
non-emptiness of all names provided an `Edit` command carries a
non-empty new name. -/
lemma apply_action_preserves (p : ResponseBool) (a : ActionPayload) (m : Store)
    (hwf : Store.WF m) :
    Store.WF (apply_action p a m).2 ∧
      (Store.namesNonempty m →
        (∀ ex nt, a = ActionPayload.Edit ex nt → nt ≠ "") →
        Store.namesNonempty (apply_action p a m).2) := by
  cases a with
  | Add key =>
    rw [apply_action_Add]
    unfold add_todo
    by_cases h0 : key = ""
    · simp only [if_pos h0]
      exact ⟨hwf, fun hne _ => hne⟩
    · rw [if_neg h0]
      by_cases hc : Store.containsKey m key
      · simp only [hc, if_true]
        exact ⟨hwf, fun hne _ => hne⟩
      · simp only [hc, Bool.false_eq_true, if_false]
        exact ⟨Store.WF.insertKey hwf key false,
          fun hne _ => Store.namesNonempty_insertKey hne h0 false⟩
  | Clear =>
    rw [apply_action_Clear]
    by_cases hp : p = ResponseBool.Value true
    · rw [if_pos hp]
      refine ⟨List.nodup_nil, fun _ _ => ?_⟩
      intro k hk
      simp [clear_todos, Store.keys] at hk
    · rw [if_neg hp]
      exact ⟨hwf, fun hne _ => hne⟩
  | Edit existing new_text =>
    rw [apply_action_Edit]
    cases hl : Store.lookupKey m existing with
    | none => exact ⟨hwf, fun hne _ => hne⟩
    | some status =>
      refine ⟨Store.WF.insertKey (Store.WF.eraseKey hwf existing) new_text status,
        fun hne hedit => ?_⟩
      have hnt : new_text ≠ "" := hedit existing new_text rfl
      exact Store.namesNonempty_insertKey
        (Store.namesNonempty_eraseKey hne existing) hnt status
  | List =>
    rw [apply_action_List]
    exact ⟨hwf, fun hne _ => hne⟩
  | ListWithStatus kind =>
    rw [apply_action_ListWithStatus]
    exact ⟨hwf, fun hne _ => hne⟩
  | Remove key =>
    rw [apply_action_Remove]
    by_cases h0 : key = ""
    · simp only [if_pos h0]
      exact ⟨hwf, fun hne _ => hne⟩
    · rw [if_neg h0]
      cases hl : Store.lookupKey m key with
      | none =>
        rw [remove_todo_of_absent hl]
        exact ⟨hwf, fun hne _ => hne⟩
      | some v =>
        rw [remove_todo_of_lookup hl]
        exact ⟨Store.WF.eraseKey hwf key,
          fun hne _ => Store.namesNonempty_eraseKey hne key⟩
  | Set key val =>
    rw [apply_action_Set]
    by_cases h0 : key = ""
    · simp only [if_pos h0]
      exact ⟨hwf, fun hne _ => hne⟩
    · rw [if_neg h0]
      exact ⟨Store.WF.insertKey hwf key val,
        fun hne _ => Store.namesNonempty_insertKey hne h0 val⟩
  | Other input =>
    rw [apply_action_Other]
    exact ⟨hwf, fun hne _ => hne⟩

/-! ### The codec model and the serialization round trip -/

lemma decodeStore_encodeStore (m : Store) :
    decodeStore (encodeStore m) = Except.ok m := by
  induction m with
  | nil => simp [encodeStore, decodeStore]
  | cons kv rest ih =>
    obtain ⟨k, v⟩ := kv
    have hshape : encodeStore ((k, v) :: rest) =
        k.toList.length ::
          (k.toList.map Char.toNat ++
            ((if v then 1 else 0) :: encodeStore rest)) := rfl
    set codes := k.toList.map Char.toNat with hcodes
    have hclen : codes.length = k.toList.length := by
      rw [hcodes, List.length_map]
    have hlen : k.toList.length + 1 ≤
        (codes ++ ((if v then 1 else 0) :: encodeStore rest)).length := by
      rw [List.length_append, hclen, List.length_cons]
      omega
    have hdropn : (codes ++ ((if v then 1 else 0) :: encodeStore rest)).drop
        k.toList.length = (if v then 1 else 0) :: encodeStore rest := by
      rw [← hclen]
      exact List.drop_left codes _
    have hdrop : (codes ++ ((if v then 1 else 0) :: encodeStore rest)).drop
        (k.toList.length + 1) = encodeStore rest := by
      rw [show k.toList.length + 1 = k.toList.length + 1 from rfl,
        ← List.drop_drop 1 k.toList.length, hdropn, List.drop_one,
        List.tail_cons]
    have htake : (codes ++ ((if v then 1 else 0) :: encodeStore rest)).take
        k.toList.length = codes := by
      rw [← hclen]
      exact List.take_left codes _
    rw [hshape]
    unfold decodeStore
    rw [if_pos hlen, hdrop, ih, htake, hdropn]
    have hname : String.mk (codes.map Char.ofNat) = k := by
      rw [hcodes, List.map_map]
      have hid : (Char.ofNat ∘ Char.toNat) = id :=
        funext fun c => Char.ofNat_toNat c
      rw [hid, List.map_id]
      cases k
      rfl
    have hstatus : (((if v then 1 else 0 : Nat) :: encodeStore rest).headD 0
        == 1) = v := by
      cases v <;> rfl
    rw [hname, hstatus]

lemma serialize_with_eq (c : EncodingType) (m : Store) :
    serialize_with c m = Except.ok (c.tag :: encodeStore m) := by
  cases c <;> rfl

lemma deserialize_serialize (c : EncodingType) (m : Store) :
    deserialize_with c (c.tag :: encodeStore m) = Except.ok m := by
  cases c <;> simp [deserialize_with, decodeWith, decodeStore_encodeStore]

/-! ### The benchmark harness -/

lemma mem_EncodingType_all (ty : EncodingType) : ty ∈ EncodingType.all := by
  cases ty <;> simp [EncodingType.all]

lemma mem_harness_time_table (ser : EncodingType → Store → Except String Bytes)
    (m : Store) (ty : EncodingType) :
    ty ∈ harness_time_table_codecs ser m ↔ ∃ d, ser ty m = Except.ok d := by
  unfold harness_time_table_codecs harness_byte_map
  rw [List.map_filterMap]
  rw [List.mem_filterMap]
  constructor
  · rintro ⟨ty', hmem, hf⟩
    cases hs : ser ty' m with
    | ok d =>
      simp only [hs, Option.map_some] at hf
      injection hf with hf
      subst hf
      exact ⟨d, hs⟩
    | error e => simp [hs] at hf
  · rintro ⟨d, hd⟩
    refine ⟨ty, mem_EncodingType_all ty, ?_⟩
    simp [hd]

lemma mem_harness_size_table (ser : EncodingType → Store → Except String Bytes)
    (m : Store) (ty : EncodingType) :
    ty ∈ harness_size_table_codecs ser m ↔ ∃ d, ser ty m = Except.ok d := by
  unfold harness_size_table_codecs
  rw [← mem_harness_time_table ser m ty]
  unfold harness_time_table_codecs
  constructor
  · intro h
    rcases List.mem_map.mp h with ⟨pair, hmem, hf⟩
    exact List.mem_map.mpr ⟨pair, List.mem_mergeSort.mp hmem, hf⟩
  · intro h
    rcases List.mem_map.mp h with ⟨pair, hmem, hf⟩
    exact List.mem_map.mpr ⟨pair, List.mem_mergeSort.mpr hmem, hf⟩

lemma harness_decode_keys (ser : EncodingType → Store → Except String Bytes)
    (de : EncodingType → Bytes → Except String Store) (m : Store) :
    (harness_decode_results ser de m).map Prod.fst =
      harness_time_table_codecs ser m := by
  unfold harness_decode_results harness_time_table_codecs
  rw [List.map_map]
  apply List.map_congr_left
  intro tb _
  simp only [Function.comp_apply]
  cases hde : de tb.1 tb.2 <;> simp [hde]

lemma applySeq_preserves (cmds : List (ResponseBool × ActionPayload))
    (m : Store) (hwf : Store.WF m) :
    Store.WF (applySeq cmds m) ∧
      (Store.namesNonempty m →
        (∀ pa ∈ cmds, ∀ ex nt, pa.2 = ActionPayload.Edit ex nt → nt ≠ "") →
        Store.namesNonempty (applySeq cmds m)) := by
  induction cmds generalizing m with
  | nil => exact ⟨hwf, fun hne _ => hne⟩
  | cons pa rest ih =>
    obtain ⟨p, a⟩ := pa
    have hstep := apply_action_preserves p a m hwf
    have hrest := ih (apply_action p a m).2 hstep.1
    refine ⟨hrest.1, fun hne hedit => ?_⟩
    refine hrest.2 ?_ ?_
    · exact hstep.2 hne (fun ex nt hnt =>
        hedit (p, a) (List.mem_cons_self _ _) ex nt hnt)
    · intro pa' hpa' ex nt hnt
      exact hedit pa' (List.mem_cons_of_mem _ hpa') ex nt hnt

/-! ### The claims -/

/-- C1: for every store S and every supported codec C (Json, Cbor, Bson,
MsgPack, FlexBuffer), decoding the bytes produced by encoding S with C
succeeds and yields a store the diff engine reports as `Same` —
`diff_with(S, deserialize_with(C, serialize_with(C, S))) = Same`. -/
theorem c1_roundtrip_identical (c : EncodingType) (S : Store)
    (h : Store.WF S) :
    ∃ bytes S', serialize_with c S = Except.ok bytes ∧
      deserialize_with c bytes = Except.ok S' ∧
      diff_with S S' = DiffResult.Same :=
  ⟨c.tag :: encodeStore S, S, serialize_with_eq c S,
    deserialize_serialize c S, diff_refl h⟩

theorem c1_roundtrip_identical_witness :
    Store.WF [("buy milk", false), ("walk dog", true)] ∧
    (∃ bytes S', serialize_with EncodingType.MsgPack
        [("buy milk", false), ("walk dog", true)] = Except.ok bytes ∧
      deserialize_with EncodingType.MsgPack bytes = Except.ok S' ∧
      diff_with [("buy milk", false), ("walk dog", true)] S' =
        DiffResult.Same) :=
  ⟨by decide, c1_roundtrip_identical EncodingType.MsgPack
    [("buy milk", false), ("walk dog", true)] (by decide)⟩

/-- C2: for any two stores, `diff_with` emits exactly one `TodoNotFound`
entry for each name present in exactly one store (recording which side),
exactly one `TodoStatusMistake` entry for each name present in both with
differing statuses (recording both statuses), and nothing else
(membership characterization plus nodup entry names); the result is
`Same` iff no entries are emitted, and `diff_with S S = Same`. -/
theorem c2_diff_characterization (self other : Store)
    (h1 : Store.WF self) (h2 : Store.WF other) :
    (∀ e, e ∈ (diff_with self other).entries ↔ DiffSpec self other e) ∧
    ((diff_with self other).entries.map DiffEntry.name).Nodup ∧
    (diff_with self other = DiffResult.Same ↔
      (diff_with self other).entries = []) ∧
    diff_with self self = DiffResult.Same :=
  ⟨fun e => mem_diff_entries h1 h2 e, entry_names_nodup h1 h2,
    diff_with_Same_iff self other, diff_refl h1⟩

theorem c2_diff_characterization_witness :
    Store.WF [("buy milk", false), ("walk dog", true)] ∧
    Store.WF [("buy milk", true), ("walk dog", true), ("call mom", false)] ∧
    (DiffEntry.TodoStatusMistake "buy milk" false true ∈
        (diff_with [("buy milk", false), ("walk dog", true)]
          [("buy milk", true), ("walk dog", true), ("call mom", false)]).entries ↔
      DiffSpec [("buy milk", false), ("walk dog", true)]
        [("buy milk", true), ("walk dog", true), ("call mom", false)]
        (DiffEntry.TodoStatusMistake "buy milk" false true)) ∧
    diff_with [("buy milk", false), ("walk dog", true)]
      [("buy milk", false), ("walk dog", true)] = DiffResult.Same :=
  ⟨by decide, by decide,
    (c2_diff_characterization [("buy milk", false), ("walk dog", true)]
      [("buy milk", true), ("walk dog", true), ("call mom", false)]
      (by decide) (by decide)).1 _,
    (c2_diff_characterization [("buy milk", false), ("walk dog", true)]
      [("buy milk", true), ("walk dog", true), ("call mom", false)]
      (by decide) (by decide)).2.2.2⟩

/-- C3 (as stated, refuted): the `Edit` arm of `apply_action` performs no
emptiness check on the new name, so the two-command sequence
`Add "a"; Edit "a" ""` reaches a store holding the empty-named item
`("", false)` from the empty store. -/
theorem c3_counterexample :
    applySeq [(ResponseBool.Cancelled, ActionPayload.Add "a"),
        (ResponseBool.Cancelled, ActionPayload.Edit "a" "")] [] =
      [("", false)] ∧
    ¬ Store.namesNonempty
        (applySeq [(ResponseBool.Cancelled, ActionPayload.Add "a"),
          (ResponseBool.Cancelled, ActionPayload.Edit "a" "")] []) :=
  ⟨rfl, by decide⟩

/-- C3 (amended): every store reachable from a well-formed store by any
command sequence keeps its keys unique; keys stay non-empty provided no
`Edit` command in the sequence carries an empty new name (`Edit` with an
empty new name is the one command that can insert an empty-named item). -/
theorem c3_amended_invariant (cmds : List (ResponseBool × ActionPayload))
    (m : Store) (hwf : Store.WF m) (hne : Store.namesNonempty m) :
    Store.WF (applySeq cmds m) ∧
      ((∀ pa ∈ cmds, ∀ ex nt, pa.2 = ActionPayload.Edit ex nt → nt ≠ "") →
        Store.namesNonempty (applySeq cmds m)) :=
  ⟨(applySeq_preserves cmds m hwf).1,
    fun hedit => (applySeq_preserves cmds m hwf).2 hne hedit⟩

theorem c3_amended_invariant_witness :
    Store.WF ([] : Store) ∧ Store.namesNonempty ([] : Store) ∧
    (Store.WF (applySeq [(ResponseBool.Cancelled, ActionPayload.Add "a")] []) ∧
      ((∀ pa ∈ [(ResponseBool.Cancelled, ActionPayload.Add "a")],
          ∀ ex nt, pa.2 = ActionPayload.Edit ex nt → nt ≠ "") →
        Store.namesNonempty
          (applySeq [(ResponseBool.Cancelled, ActionPayload.Add "a")] []))) :=
  ⟨by decide, by decide,
    c3_amended_invariant [(ResponseBool.Cancelled, ActionPayload.Add "a")] []
      (by decide) (by decide)⟩

/-- C4 (as stated, refuted): `diff_with` does not sort its entries by
name — diffing `{"z": false}` against `{"a": false}` yields the entry
for `"z"` before the entry for `"a"`. -/
theorem c4_counterexample :
    diff_with [("z", false)] [("a", false)] =
      DiffResult.Changes [DiffEntry.TodoNotFound "z" true false,
        DiffEntry.TodoNotFound "a" false true] ∧
    ¬ sortedByName [DiffEntry.TodoNotFound "z" true false,
        DiffEntry.TodoNotFound "a" false true] := by
  constructor
  · rfl
  · intro h
    unfold sortedByName at h
    simp only [List.map_cons, List.map_nil, DiffEntry.name] at h
    have h2 := (List.sorted_cons.mp h).1 "a" (List.mem_singleton.mpr rfl)
    rw [← not_lt] at h2
    apply h2
    rw [String.lt_iff_toList_lt]
    decide

/-- C4 (amended): the entry order of `diff_with` is the concatenation of
the first-pass entries — one per key of `this`, in the backing map's
iteration order — followed by the `TodoNotFound` entries for keys only
in `that`; the list is not sorted by name. -/
theorem c4_amended_split (self other : Store) (h1 : Store.WF self)
    (h2 : Store.WF other) :
    ∃ l1 l2, (diff_with self other).entries = l1 ++ l2 ∧
      (∀ e ∈ l1, e.name ∈ Store.keys self) ∧
      (∀ e ∈ l2, e.name ∉ Store.keys self ∧ e.name ∈ Store.keys other) := by
  refine ⟨(diffLoop self other).1,
    (diffLoop self other).2.map
      (fun kv => DiffEntry.TodoNotFound kv.1 false true),
    diff_with_entries self other, ?_, ?_⟩
  · intro e he
    rw [diffLoop_fst other h1] at he
    rcases List.mem_filterMap.mp he with ⟨kv, hmem, hf⟩
    rw [firstPassEntry_name hf]
    exact Store.mem_keys_iff.mpr ⟨kv.2, by simpa using hmem⟩
  · intro e he
    rw [diffLoop_snd, foldl_eraseKey h2] at he
    rcases List.mem_map.mp he with ⟨kv, hmem, hf⟩
    have hfil := List.mem_filter.mp hmem
    subst hf
    constructor
    · simpa [DiffEntry.name] using hfil.2
    · exact Store.mem_keys_iff.mpr ⟨kv.2, by simpa using hfil.1⟩

theorem c4_amended_split_witness :
    Store.WF [("z", false)] ∧ Store.WF [("a", false)] ∧
    (∃ l1 l2, (diff_with [("z", false)] [("a", false)]).entries = l1 ++ l2 ∧
      (∀ e ∈ l1, e.name ∈ Store.keys [("z", false)]) ∧
      (∀ e ∈ l2, e.name ∉ Store.keys [("z", false)] ∧
        e.name ∈ Store.keys [("a", false)])) :=
  ⟨by decide, by decide,
    c4_amended_split [("z", false)] [("a", false)] (by decide) (by decide)⟩

/-- C5: `save_to_disk` derives its path from the default codec's file
extension (`data.msgpack`), but `load_from_disk` derives its path from
the codec's `Display` form (`data.MsgPack`) — two different paths, so a
fresh save followed by a load fails with the not-found error instead of
reading back the saved bytes. -/
theorem c5_save_load_divergence :
    save_path = "data.msgpack" ∧ load_path = "data.MsgPack" ∧
    save_path ≠ load_path ∧
    save_to_disk [] [("a", true)] =
      Except.ok [("data.msgpack", [3, 1, 97, 1])] ∧
    FileState.lookupPath [("data.msgpack", [3, 1, 97, 1])] load_path =
      none ∧
    load_from_disk [("data.msgpack", [3, 1, 97, 1])] =
      Except.error ("File " ++ toString (repr load_path) ++ " not found!") := by
  refine ⟨rfl, rfl, by decide, rfl, by decide, ?_⟩
  have hpath : FileState.lookupPath [("data.msgpack", [3, 1, 97, 1])]
      load_path = none := by decide
  unfold load_from_disk
  rw [hpath]

/-- C6: the `Edit` arm fails with `TodoNotFound` leaving the store
unchanged when `existing` is absent; otherwise it removes `existing`'s
status and re-inserts it under `new_name`, overwriting whatever was
there, so afterwards `new_name` maps to the old status and `existing`
is gone (unless the two names coincide). -/
theorem c6_edit_semantics (p : ResponseBool) (existing new_text : String)
    (m : Store) (hwf : Store.WF m) :
    (Store.lookupKey m existing = none →
      apply_action p (ActionPayload.Edit existing new_text) m =
        (Except.error CommandError.TodoNotFound, m)) ∧
    (∀ st, Store.lookupKey m existing = some st →
      (apply_action p (ActionPayload.Edit existing new_text) m).1 =
          Except.ok () ∧
      Store.lookupKey
          (apply_action p (ActionPayload.Edit existing new_text) m).2
          new_text = some st ∧
      (existing ≠ new_text →
        Store.lookupKey
            (apply_action p (ActionPayload.Edit existing new_text) m).2
            existing = none)) := by
  constructor
  · intro hl
    simp only [apply_action_Edit, hl]
  · intro st hl
    simp only [apply_action_Edit, hl]
    refine ⟨trivial, Store.lookupKey_insertKey_self _ _ _, fun hne => ?_⟩
    rw [Store.lookupKey_insertKey_ne _ st hne]
    exact Store.lookupKey_eraseKey_self hwf existing

theorem c6_edit_semantics_witness :
    Store.WF [("a", true), ("b", false)] ∧
    Store.lookupKey [("a", true), ("b", false)] "a" = some true ∧
    (("a" : String) ≠ "b") ∧
    ((apply_action ResponseBool.Cancelled (ActionPayload.Edit "a" "b")
        [("a", true), ("b", false)]).1 = Except.ok () ∧
      Store.lookupKey (apply_action ResponseBool.Cancelled
          (ActionPayload.Edit "a" "b") [("a", true), ("b", false)]).2 "b" =
        some true ∧
      (("a" : String) ≠ "b" →
        Store.lookupKey (apply_action ResponseBool.Cancelled
            (ActionPayload.Edit "a" "b") [("a", true), ("b", false)]).2 "a" =
          none)) :=
  ⟨by decide, by decide, by decide,
    (c6_edit_semantics ResponseBool.Cancelled "a" "b"
      [("a", true), ("b", false)] (by decide)).2 true (by decide)⟩

/-- C7: `add_todo` rejects the empty name with `InputInvalid`, a present
key with `TodoAlreadyExists`, and otherwise inserts the pair; every
failing call returns the store unchanged (same length). -/
theorem c7_add_todo (todo : String) (status : Bool) (m : Store) :
    (todo = "" → add_todo todo status m =
      (Except.error (CommandError.InputInvalid "Todo is empty"), m)) ∧
    (todo ≠ "" → Store.containsKey m todo = true →
      add_todo todo status m =
        (Except.error CommandError.TodoAlreadyExists, m)) ∧
    (todo ≠ "" → Store.containsKey m todo = false →
      add_todo todo status m = (Except.ok (), Store.insertKey m todo status) ∧
      Store.lookupKey (Store.insertKey m todo status) todo = some status) ∧
    (∀ e m', add_todo todo status m = (Except.error e, m') →
      m' = m ∧ (Store.keys m').length = (Store.keys m).length) := by
  refine ⟨?_, ?_, ?_, ?_⟩
  · intro h0
    unfold add_todo
    rw [if_pos h0]
  · intro h0 hc
    unfold add_todo
    rw [if_neg h0]
    simp only [hc, if_true]
  · intro h0 hc
    unfold add_todo
    rw [if_neg h0]
    simp only [hc, Bool.false_eq_true, if_false]
    exact ⟨trivial, Store.lookupKey_insertKey_self m todo status⟩
  · intro e m' heq
    unfold add_todo at heq
    by_cases h0 : todo = ""
    · rw [if_pos h0] at heq
      injection heq with h1 h2
      exact ⟨h2.symm, by rw [h2]⟩
    · rw [if_neg h0] at heq
      by_cases hc : Store.containsKey m todo
      · simp only [hc, if_true] at heq
        injection heq with h1 h2
        exact ⟨h2.symm, by rw [h2]⟩
      · simp only [hc, Bool.false_eq_true, if_false] at heq
        injection heq with h1 h2
        cases h1

theorem c7_add_todo_witness :
    ("x" : String) ≠ "" ∧
    Store.containsKey [] "x" = false ∧
    add_todo "x" false [] = (Except.ok (), [("x", false)]) ∧
    Store.containsKey [("x", false)] "x" = true ∧
    add_todo "x" false [("x", false)] =
      (Except.error CommandError.TodoAlreadyExists, [("x", false)]) ∧
    (Store.keys [("x", false)]).length = 1 :=
  ⟨by decide, by decide,
    ((c7_add_todo "x" false []).2.2.1 (by decide) (by decide)).1,
    by decide,
    (c7_add_todo "x" false [("x", false)]).2.1 (by decide) (by decide),
    by decide⟩

/-- C8: the `Remove` arm rejects the empty name with `InputInvalid`,
fails with `TodoNotFound` when the name is absent (in particular on an
empty store), and otherwise removes the item — `remove_todo` returning
the removed pair — leaving the store unchanged on every failing call. -/
theorem c8_remove_semantics (p : ResponseBool) (key : String) (m : Store) :
    (key = "" → apply_action p (ActionPayload.Remove key) m =
      (Except.error (CommandError.InputInvalid "Todo is empty"), m)) ∧
    (key ≠ "" → Store.lookupKey m key = none →
      apply_action p (ActionPayload.Remove key) m =
        (Except.error CommandError.TodoNotFound, m)) ∧
    (key ≠ "" → ∀ v, Store.lookupKey m key = some v →
      apply_action p (ActionPayload.Remove key) m =
        (Except.ok (), Store.eraseKey m key) ∧
      remove_todo key m = (some (key, v), Store.eraseKey m key)) := by
  refine ⟨?_, ?_, ?_⟩
  · intro h0
    rw [apply_action_Remove, if_pos h0]
  · intro h0 hl
    rw [apply_action_Remove, if_neg h0, remove_todo_of_absent hl]
  · intro h0 v hl
    rw [apply_action_Remove, if_neg h0, remove_todo_of_lookup hl]
    exact ⟨rfl, rfl⟩

theorem c8_remove_semantics_witness :
    ("missing" : String) ≠ "" ∧
    Store.lookupKey [] "missing" = none ∧
    apply_action ResponseBool.Cancelled (ActionPayload.Remove "missing") [] =
      (Except.error CommandError.TodoNotFound, []) ∧
    Store.lookupKey [("x", true)] "x" = some true ∧
    (apply_action ResponseBool.Cancelled (ActionPayload.Remove "x")
        [("x", true)] = (Except.ok (), Store.eraseKey [("x", true)] "x") ∧
      remove_todo "x" [("x", true)] =
        (some ("x", true), Store.eraseKey [("x", true)] "x")) :=
  ⟨by decide, by decide,
    (c8_remove_semantics ResponseBool.Cancelled "missing" []).2.1
      (by decide) (by decide),
    by decide,
    (c8_remove_semantics ResponseBool.Cancelled "x" [("x", true)]).2.2
      (by decide) true (by decide)⟩

/-- C9 (as stated, refuted): a codec whose encode fails is dropped from
`byte_map`, and with it from both reported tables — with a serializer
table in which `Bson` fails, `Bson` is in the enumerable set but in
neither the size table nor the timing table. -/
theorem c9_counterexample :
    EncodingType.Bson ∈ EncodingType.all ∧
    serFailingBson EncodingType.Bson [("a", true)] =
      Except.error "encode failure" ∧
    EncodingType.Bson ∉
      harness_size_table_codecs serFailingBson [("a", true)] ∧
    EncodingType.Bson ∉
      harness_time_table_codecs serFailingBson [("a", true)] := by
  refine ⟨by decide, rfl, ?_, ?_⟩
  · intro hmem
    rcases (mem_harness_size_table serFailingBson [("a", true)]
      EncodingType.Bson).mp hmem with ⟨d, hd⟩
    rw [show serFailingBson EncodingType.Bson [("a", true)] =
      Except.error "encode failure" from rfl] at hd
    cases hd
  · intro hmem
    rcases (mem_harness_time_table serFailingBson [("a", true)]
      EncodingType.Bson).mp hmem with ⟨d, hd⟩
    rw [show serFailingBson EncodingType.Bson [("a", true)] =
      Except.error "encode failure" from rfl] at hd
    cases hd

/-- C9 (amended): a codec appears in the reported size and timing tables
iff its encode succeeded — so decode failures never drop a codec (the
decode loop covers exactly the `byte_map` codecs and only updates
existing timing entries), failures are isolated per codec, and with the
actual `Cereal::serialize_with` every codec of the enumerable set is
reported; but a codec whose encode fails is omitted from both tables. -/
theorem c9_amended_harness (ser : EncodingType → Store → Except String Bytes)
    (de : EncodingType → Bytes → Except String Store) (m : Store)
    (ty : EncodingType) :
    (ty ∈ harness_size_table_codecs ser m ↔ ∃ d, ser ty m = Except.ok d) ∧
    (ty ∈ harness_time_table_codecs ser m ↔ ∃ d, ser ty m = Except.ok d) ∧
    (harness_decode_results ser de m).map Prod.fst =
      harness_time_table_codecs ser m ∧
    ty ∈ harness_size_table_codecs cerealSer m ∧
    ty ∈ harness_time_table_codecs cerealSer m :=
  ⟨mem_harness_size_table ser m ty, mem_harness_time_table ser m ty,
    harness_decode_keys ser de m,
    (mem_harness_size_table cerealSer m ty).mpr
      ⟨ty.tag :: encodeStore m, serialize_with_eq ty m⟩,
    (mem_harness_time_table cerealSer m ty).mpr
      ⟨ty.tag :: encodeStore m, serialize_with_eq ty m⟩⟩

/-- C10: `diff_with` is symmetric up to side-swapping — the two
directions report `Same` together, and the entries of `diff_with b a`
are exactly (as a bijection, here a permutation) the entries of
`diff_with a b` with their `this`/`that` roles exchanged (names kept,
`this_has`/`that_has` and `this_status`/`that_status` swapped). -/
theorem c10_diff_symmetric (a b : Store) (ha : Store.WF a)
    (hb : Store.WF b) :
    (diff_with a b = DiffResult.Same ↔ diff_with b a = DiffResult.Same) ∧
    List.Perm (diff_with b a).entries
      ((diff_with a b).entries.map DiffEntry.swapSides) := by
  have hperm : List.Perm (diff_with b a).entries
      ((diff_with a b).entries.map DiffEntry.swapSides) := by
    rw [List.perm_ext_iff_of_nodup
      (List.Nodup.of_map _ (entry_names_nodup hb ha))
      (List.Nodup.map swapSides_injective
        (List.Nodup.of_map _ (entry_names_nodup ha hb)))]
    intro e
    rw [mem_diff_entries hb ha e, DiffSpec_swap a b e,
      ← mem_diff_entries ha hb e.swapSides]
    constructor
    · intro hmem
      exact List.mem_map.mpr ⟨e.swapSides, hmem, swapSides_swapSides e⟩
    · intro hmem
      rcases List.mem_map.mp hmem with ⟨x, hx, hswap⟩
      have : e.swapSides = x := by
        rw [← hswap, swapSides_swapSides]
      rw [this]
      exact hx
  refine ⟨?_, hperm⟩
  constructor
  · intro hS
    rw [diff_with_Same_iff] at hS ⊢
    have hp := hperm
    rw [hS] at hp
    simp only [List.map_nil] at hp
    exact List.Perm.eq_nil hp
  · intro hS
    rw [diff_with_Same_iff] at hS ⊢
    have hp := hperm
    rw [hS] at hp
    have hmap := List.Perm.eq_nil hp.symm
    exact List.map_eq_nil_iff.mp hmap

theorem c10_diff_symmetric_witness :
    Store.WF [("a", true)] ∧ Store.WF [("a", false), ("b", true)] ∧
    ((diff_with [("a", true)] [("a", false), ("b", true)] =
        DiffResult.Same ↔
      diff_with [("a", false), ("b", true)] [("a", true)] =
        DiffResult.Same) ∧
    List.Perm (diff_with [("a", false), ("b", true)] [("a", true)]).entries
      ((diff_with [("a", true)] [("a", false), ("b", true)]).entries.map
        DiffEntry.swapSides)) :=
  ⟨by decide, by decide,
    c10_diff_symmetric [("a", true)] [("a", false), ("b", true)]
      (by decide) (by decide)⟩

end RustTodo
